import Mathlib

/-!
Verification development for the unfort incremental bundler core.

Part 1 models the record-store jobs (`createJobs`): small pure functions
translated from the job bodies (`ext`, `isTextFile`, `dependencyIdentifiers`,
`resolvePathDependencies`, `resolvedDependencies`, `content`, `url`).
JavaScript objects are modelled as insertion-ordered association lists,
`null`/`undefined` as `Option`, promise rejection as `Except`.

Part 2 models the directed dependency graph (`createGraph`): the node map,
pending trace jobs, the task queue (`process.nextTick` scheduling), and the
prune/permanent-root operations.  The graph utility module the graph imports
(`addNode`, `addEdge`, `pruneFromNode`, ...) is not part of the sources, so
those definitions are modelled from the spec and marked as such.
-/

/-- Lookup in an association list (first binding wins), modelling JS property
access `obj[k]` returning `undefined` as `none`. -/
def olookup {α β : Type} [DecidableEq α] (k : α) : List (α × β) → Option β
  | [] => none
  | (a, b) :: t => if a = k then some b else olookup k t

/-- Keys of an association list. -/
def keysOf {α β : Type} (l : List (α × β)) : List α := l.map (·.1)

theorem olookup_isSome_iff_mem {α β : Type} [DecidableEq α] (k : α) (l : List (α × β)) :
    (olookup k l).isSome = true ↔ k ∈ keysOf l := by
  induction l with
  | nil => simp [olookup, keysOf]
  | cons p t ih =>
    obtain ⟨a, b⟩ := p
    by_cases h : a = k
    · subst h; simp [olookup, keysOf]
    · simp [olookup, keysOf, h, ih, Ne.symm h]

theorem olookup_mem {α β : Type} [DecidableEq α] {k : α} {v : β} {l : List (α × β)}
    (h : olookup k l = some v) : (k, v) ∈ l := by
  induction l with
  | nil => simp [olookup] at h
  | cons p t ih =>
    obtain ⟨a, b⟩ := p
    by_cases hk : a = k
    · subst hk
      simp [olookup] at h
      simp [h]
    · simp [olookup, hk] at h
      exact List.mem_cons_of_mem _ (ih h)

/-- JS object update `obj[k] = v`: replace the binding in place if present,
otherwise append it (JS objects keep insertion order). -/
def objSet {β : Type} (o : List (String × β)) (k : String) (v : β) : List (String × β) :=
  match o with
  | [] => [(k, v)]
  | (a, b) :: t => if a = k then (a, v) :: t else (a, b) :: objSet t k v

/-- lodash `assign(o, src)`: set every binding of `src` on `o`, in order. -/
def objAssign {β : Type} (o src : List (String × β)) : List (String × β) :=
  src.foldl (fun acc p => objSet acc p.1 p.2) o

theorem olookup_objSet {β : Type} (o : List (String × β)) (k k' : String) (v : β) :
    olookup k' (objSet o k v) = if k' = k then some v else olookup k' o := by
  induction o with
  | nil =>
    by_cases h : k' = k
    · simp [objSet, olookup, h]
    · simp [objSet, olookup, h, Ne.symm h]
  | cons p t ih =>
    obtain ⟨a, b⟩ := p
    by_cases hak : a = k
    · subst hak
      by_cases h : k' = a
      · simp [objSet, olookup, h]
      · simp [objSet, olookup, h, Ne.symm h]
    · by_cases h : k' = a
      · subst h
        simp [objSet, hak, olookup, Ne.symm hak]
      · simp [objSet, hak, olookup, Ne.symm h, h, ih]

theorem olookup_eq_none_of_not_mem {β : Type} {k : String} {l : List (String × β)}
    (h : k ∉ keysOf l) : olookup k l = none := by
  induction l with
  | nil => simp [olookup]
  | cons p t ih =>
    simp only [keysOf, List.map_cons, List.mem_cons] at h
    push_neg at h
    obtain ⟨a, b⟩ := p
    simp only [olookup]
    rw [if_neg (Ne.symm h.1)]
    exact ih h.2

theorem olookup_objAssign {β : Type} (src : List (String × β))
    (hsrc : (keysOf src).Nodup) (o : List (String × β)) (k : String) :
    olookup k (objAssign o src) = (olookup k src).or (olookup k o) := by
  induction src generalizing o with
  | nil => simp [objAssign, olookup]
  | cons p t ih =>
    obtain ⟨a, b⟩ := p
    simp only [keysOf, List.map_cons, List.nodup_cons] at hsrc
    have step : objAssign o ((a, b) :: t) = objAssign (objSet o a b) t := rfl
    rw [step, ih hsrc.2, olookup_objSet]
    by_cases h : k = a
    · subst h
      have hnone : olookup k t = none :=
        olookup_eq_none_of_not_mem (by simpa [keysOf] using hsrc.1)
      simp [olookup, hnone]
    · simp [olookup, Ne.symm h, h]

/-! ## Record-store jobs (translated from `createJobs`) -/

/-- Node `path.basename(name)` for paths without trailing separators: the
part of the path after the last `/` (computed structurally over the
character list so that it evaluates inside the kernel). -/
def basenameFull (name : String) : String :=
  String.mk ((name.toList.reverse.takeWhile (fun c => c ≠ '/')).reverse)

/-- lodash `startsWith(s, p)` / JS `s.startsWith(p)`. -/
def jsStartsWith (s p : String) : Bool :=
  p.toList.isPrefixOf s.toList

/-- Node `path.extname(name)`: the suffix of the basename starting at its last
dot, unless that dot is the basename's first character (or the basename is
`.` or `..`), in which case the extension is empty. -/
def extname (name : String) : String :=
  let b := basenameFull name
  if b = "." ∨ b = ".." then ""
  else
    let cs := b.toList
    match cs.reverse.findIdx? (· = '.') with
    | some j =>
      let i := cs.length - 1 - j
      if 0 < i then String.mk (cs.drop i) else ""
    | none => ""

/-- The `isTextFile` job applied to the record's extension:
`ext === '.js' || ext === '.css' || ext === '.json'`. -/
def isTextFileExt (ext : String) : Bool :=
  ext = ".js" || ext = ".css" || ext = ".json"

/-- Composition of the `isTextFile` job with the `ext` job. -/
def isTextFile (name : String) : Bool :=
  isTextFileExt (extname name)

/-- JS `id.indexOf(c)`, as an `Option Nat` (`-1` becomes `none`). -/
def jsIndexOf (s : String) (c : Char) : Option Nat :=
  s.toList.findIdx? (· = c)

/-- JS `id.slice(0, i)`. -/
def jsSliceTo (s : String) (i : Nat) : String :=
  String.mk (s.toList.take i)

/-- One stripping step of the `dependencyIdentifiers` job: if the character
occurs, keep only the part of the identifier before its first occurrence. -/
def cutAt (c : Char) (s : String) : String :=
  match jsIndexOf s c with
  | some i => jsSliceTo s i
  | none => s

/-- The identifier cleaning performed by `dependencyIdentifiers`: cut at the
first `!` (webpack loaders), then at the first `?` (url params), then at the
first `#` (url hashes), in that order. -/
def cleanIdentifier (s : String) : String :=
  cutAt '#' (cutAt '?' (cutAt '!' s))

/-- The claim's wording of the cleaning: remove the substring from the first
occurrence of `!`, `?`, or `#` onward. -/
def stripFromFirstSpecial (s : String) : String :=
  String.mk (s.toList.takeWhile (fun c => c ≠ '!' && c ≠ '?' && c ≠ '#'))

/-- An analyzed dependency as produced by `analyzeDependencies`
(an object with a `source` property). -/
structure Dep where
  source : String
deriving DecidableEq, Repr

/-- The `dependencyIdentifiers` job: if the record's cache map already holds a
`dependencyIdentifiers` value, return it; otherwise pluck `source` from the
analyzed dependencies, clean each identifier, and store the result on the
cache map.  Returns the produced list together with the cache map's
`dependencyIdentifiers` value afterwards. -/
def dependencyIdentifiers (cachedIds : Option (List String)) (analyzed : List Dep) :
    List String × Option (List String) :=
  match cachedIds with
  | some ids => (ids, some ids)
  | none =>
    let ids := (analyzed.map Dep.source).map cleanIdentifier
    (ids, some ids)

/-- lodash `zipObject(ks, vs)`. -/
def zipObject (ks vs : List String) : List (String × String) :=
  objAssign [] (ks.zip vs)

/-- The `shouldCacheResolvedPathDependencies` job:
`startsWith(ref.name, getState().rootNodeModules)`. -/
def shouldCacheResolvedPathDependencies (rootNodeModules name : String) : Bool :=
  jsStartsWith name rootNodeModules

/-- The `resolvePathDependencies` job.  Inputs: the cache map's current
`resolvePathDependencies` value, the `shouldCacheResolvedPathDependencies`
flag, the path dependency identifiers, and the resolver.  Returns the job's
result together with the cache map's `resolvePathDependencies` value
afterwards (the job assigns `cachedData.resolvePathDependencies = deps`
whenever it computes). -/
def resolvePathDependenciesJob (cachedVal : Option (List (String × String)))
    (shouldCache : Bool) (ids : List String) (resolver : String → String) :
    List (String × String) × Option (List (String × String)) :=
  if shouldCache && cachedVal.isSome then (cachedVal.getD [], cachedVal)
  else
    let deps := zipObject ids (ids.map resolver)
    (deps, some deps)

/-- The `resolvedDependencies` job: `assign({}, a, b)` where `a` is the result
of `resolvePackageDependencies` and `b` the result of
`resolvePathDependencies` (the source destructures the pair of results under
swapped names, but the assign order makes path entries override package
entries). -/
def resolvedDependencies (packageDeps pathDeps : List (String × String)) :
    List (String × String) :=
  objAssign (objAssign [] packageDeps) pathDeps

/-- The `content` job, over the record's name, the state's
`bootstrapRuntime`, the values of the `isTextFile` and `ext` jobs, and the
values of the `code` and `moduleDefinition` jobs (`none` models `null`).
Promise rejection is modelled with `Except.error`. -/
def content (bootstrapRuntime name : String) (istext : Bool) (ext : String)
    (codeVal moduleDefVal : Option String) : Except String (Option String) :=
  if !istext then .ok none
  else if name = bootstrapRuntime ∨ ext = ".css" then .ok codeVal
  else if ext = ".js" ∨ ext = ".json" then .ok moduleDefVal
  else .error ("Unknown text file extension: " ++ ext ++
    ". Cannot generate content for file: " ++ name)

/-- Split a character list on a separator character (the platform path
separator is a single character). -/
def splitOnChar (c : Char) : List Char → List (List Char)
  | [] => [[]]
  | a :: t =>
    match splitOnChar c t with
    | [] => [[]]
    | h :: r => if a = c then [] :: h :: r else (a :: h) :: r

/-- Join character-list components with a separator character. -/
def joinSep (c : Char) : List (List Char) → List Char
  | [] => []
  | [x] => x
  | x :: xs => x ++ c :: joinSep c xs

/-- Node `path.relative(from, to)` for the case used by the `url` job, over an
explicit platform separator character: split both paths into components,
drop the shared prefix of components, and join `..` segments for the
remaining `from` components with the remaining `to` components. -/
def dropShared : List (List Char) → List (List Char) →
    List (List Char) × List (List Char)
  | a :: as_, b :: bs => if a = b then dropShared as_ bs else (a :: as_, b :: bs)
  | as_, bs => (as_, bs)

def pathRelative (sep : Char) (from_ to_ : String) : String :=
  let fs := (splitOnChar sep from_.toList).filter (fun c => c ≠ [])
  let ts := (splitOnChar sep to_.toList).filter (fun c => c ≠ [])
  let (fr, tr) := dropShared fs ts
  String.mk (joinSep sep (fr.map (fun _ => ['.', '.']) ++ tr))

/-- The `url` job, translated from the source: choose `hashedName` for text
files and `ref.name` otherwise, make the name relative to `sourceRoot` when
it starts with `sourceRoot`, and prefix `rootUrl`.  The final
`relPath.split(path.ext).join('/')` uses `path.ext`, which is `undefined` on
Node's path module, and `String.prototype.split(undefined)` returns the whole
string unsplit — so the expression is the identity on `relPath`. -/
def urlJob (sourceRoot rootUrl : String) (sep : Char) (istext : Bool)
    (hashedName name : String) : String :=
  let n := if istext then hashedName else name
  let relPath := if jsStartsWith n sourceRoot then pathRelative sep sourceRoot n else n
  rootUrl ++ relPath

/-- The `url` job as the spec and claim describe it: same as `urlJob`, but
with platform path separators in the final path converted to `/`. -/
def urlClaim (sourceRoot rootUrl : String) (sep : Char) (istext : Bool)
    (hashedName name : String) : String :=
  let n := if istext then hashedName else name
  let relPath := if jsStartsWith n sourceRoot then pathRelative sep sourceRoot n else n
  rootUrl ++ String.mk (relPath.toList.map (fun x => if x = sep then '/' else x))

/-! ## Claims about the record-store jobs -/

/-- `indexOf`/`slice` cutting, at the `List Char` level. -/
def jsIndexOfList (c : Char) : List Char → Option Nat
  | [] => none
  | a :: t => if a = c then some 0 else (jsIndexOfList c t).map (· + 1)

theorem jsIndexOf_eq_list (s : String) (c : Char) :
    jsIndexOf s c = jsIndexOfList c s.toList := by
  unfold jsIndexOf
  generalize s.toList = l
  induction l with
  | nil => rfl
  | cons a t ih =>
    by_cases h : a = c
    · subst h
      simp [jsIndexOfList, List.findIdx?_cons]
    · simp [jsIndexOfList, List.findIdx?_cons, h, ih]

theorem cutList_eq_takeWhile (c : Char) (l : List Char) :
    (match jsIndexOfList c l with
     | some i => l.take i
     | none => l) = l.takeWhile (fun x => x ≠ c) := by
  induction l with
  | nil => rfl
  | cons a t ih =>
    by_cases h : a = c
    · subst h
      simp [jsIndexOfList, List.takeWhile_cons]
    · cases hfind : jsIndexOfList c t with
      | none =>
        simp [jsIndexOfList, h, hfind, List.takeWhile_cons] at ih ⊢
        exact ih
      | some i =>
        simp [jsIndexOfList, h, hfind, List.takeWhile_cons] at ih ⊢
        exact ih

theorem cutAt_eq_takeWhile (c : Char) (s : String) :
    cutAt c s = String.mk (s.toList.takeWhile (fun x => x ≠ c)) := by
  unfold cutAt jsSliceTo
  rw [jsIndexOf_eq_list, ← cutList_eq_takeWhile c s.toList]
  cases hfind : jsIndexOfList c s.toList <;> simp [hfind]

theorem toList_mk (l : List Char) : (String.mk l).toList = l := rfl

theorem tripleTakeWhile (l : List Char) :
    ((l.takeWhile (fun x => x ≠ '!')).takeWhile (fun x => x ≠ '?')).takeWhile
        (fun x => x ≠ '#') =
      l.takeWhile (fun c => c ≠ '!' && c ≠ '?' && c ≠ '#') := by
  induction l with
  | nil => rfl
  | cons a t ih =>
    by_cases h1 : a = '!'
    · subst h1; simp [List.takeWhile_cons]
    · by_cases h2 : a = '?'
      · subst h2; simp [List.takeWhile_cons, h1]
      · by_cases h3 : a = '#'
        · subst h3; simp [List.takeWhile_cons, h1, h2]
        · simp only [decide_not] at ih
          simp [List.takeWhile_cons, h1, h2, h3, ih]

theorem cleanIdentifier_eq_strip (s : String) :
    cleanIdentifier s = stripFromFirstSpecial s := by
  unfold cleanIdentifier stripFromFirstSpecial
  rw [cutAt_eq_takeWhile, cutAt_eq_takeWhile, cutAt_eq_takeWhile]
  simp only [toList_mk]
  rw [tripleTakeWhile]

/-- C7: for every record, `dependencyIdentifiers` (computing path, i.e. with no
cached `dependencyIdentifiers` entry) is the projection of the analyzed
dependencies to their `source` strings with the substring from the first
occurrence of `!`, `?`, or `#` onward removed; in particular `foo!bar?x#y`
cleans to `foo`. -/
theorem dependencyIdentifiers_strips_url_suffixes :
    (∀ analyzed : List Dep,
      (dependencyIdentifiers none analyzed).1 =
        analyzed.map (fun d => stripFromFirstSpecial d.source)) ∧
    cleanIdentifier "foo!bar?x#y" = "foo" := by
  constructor
  · intro analyzed
    show (analyzed.map Dep.source).map cleanIdentifier = _
    rw [List.map_map]
    simp only [Function.comp_def, cleanIdentifier_eq_strip]
  · decide

/-- C5: the `content` job, with `isTextFile` and `ext` wired to the record's
name as in the composed store.  The hypothesis records the `code` job's
behavior (it returns `null` for non-text files).  For the bootstrap runtime
or `.css` records the content is the `code`; otherwise for `.js`/`.json` it
is the `moduleDefinition`; for non-text records it is `null`; and if
`isTextFile` were true with an extension outside `.js`/`.json`/`.css` the job
fails (with the real `isTextFile` wiring that situation cannot arise, so the
final clause holds vacuously). -/
theorem content_spec (bootstrapRuntime name : String) (codeVal moduleDefVal : Option String)
    (hcode : isTextFile name = false → codeVal = none) :
    ((name = bootstrapRuntime ∨ extname name = ".css") →
      content bootstrapRuntime name (isTextFile name) (extname name) codeVal moduleDefVal =
        .ok codeVal) ∧
    (¬(name = bootstrapRuntime ∨ extname name = ".css") →
      (extname name = ".js" ∨ extname name = ".json") →
      content bootstrapRuntime name (isTextFile name) (extname name) codeVal moduleDefVal =
        .ok moduleDefVal) ∧
    (isTextFile name = false →
      content bootstrapRuntime name (isTextFile name) (extname name) codeVal moduleDefVal =
        .ok none) ∧
    (isTextFile name = true → extname name ≠ ".js" → extname name ≠ ".json" →
      extname name ≠ ".css" →
      ∃ msg, content bootstrapRuntime name (isTextFile name) (extname name) codeVal
        moduleDefVal = .error msg) := by
  refine ⟨?_, ?_, ?_, ?_⟩
  · intro h
    unfold content
    split_ifs with h1
    · have hb : isTextFile name = false := by simpa using h1
      rw [hcode hb]
    · rfl
  · intro h1 h2
    have ht : isTextFile name = true := by
      rcases h2 with h | h <;> simp [isTextFile, isTextFileExt, h]
    unfold content
    split_ifs with ha
    · rw [ht] at ha; exact absurd ha (by simp)
    · rfl
  · intro ht
    unfold content
    rw [ht]
    simp
  · intro ht h1 h2 h3
    have : (extname name = ".js" ∨ extname name = ".css") ∨ extname name = ".json" := by
      simpa [isTextFile, isTextFileExt] using ht
    rcases this with (h | h) | h
    · exact absurd h h1
    · exact absurd h h3
    · exact absurd h h2

theorem content_spec_witness :
    (isTextFile "x.css" = false → (some "C" : Option String) = none) ∧
    content "b.js" "x.css" (isTextFile "x.css") (extname "x.css") (some "C") (some "M") =
      .ok (some "C") :=
  ⟨by decide,
    (content_spec "b.js" "x.css" (some "C") (some "M") (by decide)).1 (Or.inr (by decide))⟩

/-- C2: `resolvedDependencies` is the union of the path map and the package
map, with the path entry winning on a shared identifier.  The no-duplicate
hypotheses record that the two inputs are JS objects (key-unique maps), as
produced by `zipObject`. -/
theorem resolvedDependencies_union (pathDeps packageDeps : List (String × String))
    (hpath : (keysOf pathDeps).Nodup) (hpkg : (keysOf packageDeps).Nodup) :
    (∀ k, olookup k (resolvedDependencies packageDeps pathDeps) =
      (olookup k pathDeps).or (olookup k packageDeps)) ∧
    (∀ k v w, olookup k pathDeps = some v → olookup k packageDeps = some w →
      olookup k (resolvedDependencies packageDeps pathDeps) = some v) := by
  have main : ∀ k, olookup k (resolvedDependencies packageDeps pathDeps) =
      (olookup k pathDeps).or (olookup k packageDeps) := by
    intro k
    unfold resolvedDependencies
    rw [olookup_objAssign pathDeps hpath, olookup_objAssign packageDeps hpkg]
    simp [olookup]
  refine ⟨main, fun k v w hv _ => ?_⟩
  rw [main k, hv]
  rfl

theorem resolvedDependencies_union_witness :
    (keysOf [("a", "P")]).Nodup ∧ (keysOf [("a", "Q"), ("b", "R")]).Nodup ∧
    olookup "a" (resolvedDependencies [("a", "Q"), ("b", "R")] [("a", "P")]) = some "P" :=
  ⟨by decide, by decide,
    (resolvedDependencies_union [("a", "P")] [("a", "Q"), ("b", "R")]
      (by decide) (by decide)).2 "a" "P" "Q" (by decide) (by decide)⟩

/-- C8 counterexample: for a record outside the root `node_modules`
(`shouldCacheResolvedPathDependencies` is false), `resolvePathDependencies`
still overwrites the cache map's `resolvePathDependencies` key — the claim
says the key is left unchanged there.  (The source's own test asserts this
write: "should set a data prop on the cache object" with `shouldCache`
false.) -/
theorem resolvePathDependencies_always_writes_cex :
    shouldCacheResolvedPathDependencies "/root/node_modules" "/src/app.js" = false ∧
    (resolvePathDependenciesJob (some [("k", "v")])
      (shouldCacheResolvedPathDependencies "/root/node_modules" "/src/app.js")
      ["./foo"] (fun id => id ++ " resolved")).2 = some [("./foo", "./foo resolved")] ∧
    (some [("./foo", "./foo resolved")] : Option (List (String × String))) ≠
      some [("k", "v")] := by
  refine ⟨by decide, by decide, by decide⟩

/-- C8 amended: `shouldCacheResolvedPathDependencies` gates only whether an
existing cached value is *returned*; whenever the job computes (the flag is
false, or no cached value exists) it writes the computed map to the cache
map's `resolvePathDependencies` key — also for files outside the root
`node_modules`. -/
theorem resolvePathDependenciesJob_write_behavior
    (cachedVal : Option (List (String × String))) (shouldCache : Bool)
    (ids : List String) (resolver : String → String) :
    (shouldCache = true → cachedVal.isSome = true →
      resolvePathDependenciesJob cachedVal shouldCache ids resolver =
        (cachedVal.getD [], cachedVal)) ∧
    (shouldCache = false ∨ cachedVal = none →
      resolvePathDependenciesJob cachedVal shouldCache ids resolver =
        (zipObject ids (ids.map resolver), some (zipObject ids (ids.map resolver)))) := by
  constructor
  · intro h1 h2
    simp [resolvePathDependenciesJob, h1, h2]
  · intro h
    rcases h with h | h <;> simp [resolvePathDependenciesJob, h]

theorem resolvePathDependenciesJob_write_behavior_witness :
    ((false : Bool) = false ∨ (some [("k", "v")] : Option (List (String × String))) = none) ∧
    resolvePathDependenciesJob (some [("k", "v")]) false ["./foo"]
        (fun id => id ++ " resolved") =
      (zipObject ["./foo"] (["./foo"].map (fun id => id ++ " resolved")),
       some (zipObject ["./foo"] (["./foo"].map (fun id => id ++ " resolved")))) :=
  ⟨Or.inl rfl,
    (resolvePathDependenciesJob_write_behavior (some [("k", "v")]) false ["./foo"]
      (fun id => id ++ " resolved")).2 (Or.inl rfl)⟩

/-- C6: the claim says platform path separators are converted to `/`, but the
source computes `relPath.split(path.ext).join('/')` where `path.ext` is
`undefined` (the spec itself flags this as a typo for `path.sep`), so the
separators are left untouched.  On a platform whose separator is `\`, the
code's url for a non-text record under the source root keeps the backslashes
while the claimed url converts them. -/
theorem url_path_ext_code_bug :
    urlJob "C:\\src\\" "http://h/" '\\' false "HASHED" "C:\\src\\a\\b.png" =
      "http://h/a\\b.png" ∧
    urlClaim "C:\\src\\" "http://h/" '\\' false "HASHED" "C:\\src\\a\\b.png" =
      "http://h/a/b.png" ∧
    urlJob "C:\\src\\" "http://h/" '\\' false "HASHED" "C:\\src\\a\\b.png" ≠
      urlClaim "C:\\src\\" "http://h/" '\\' false "HASHED" "C:\\src\\a\\b.png" := by
  refine ⟨by decide, by decide, by decide⟩

/-! ## The directed dependency graph (translated from `createGraph`) -/

/-- A graph node: `{ id, dependencies, dependents }` (the id is the key in
the nodes map). -/
structure GNode where
  dependencies : List String
  dependents : List String
deriving DecidableEq, Repr

/-- The graph's `nodes` object: a JS object keyed by node id. -/
abbrev Nodes := List (String × GNode)

/-- `isNodeDefined(nodes, node)`: `!!nodes[node]` (a node object is always
truthy). -/
def isNodeDefined (nodes : Nodes) (node : String) : Bool :=
  (olookup node nodes).isSome

/-- A pending trace job `{ node, isValid }`. -/
structure Job where
  node : String
  isValid : Bool
deriving DecidableEq, Repr

/-- Job objects have identity in JS (prune flips `isValid` through the shared
reference); we model them as entries of a job table keyed by a fresh id,
with `pendingJobs` holding the ids currently in the pending list. -/
abbrev Jobs := List (Nat × Job)

/-- `isNodePending(pendingJobs, node)`:
`pendingJobs.some(job => job.isValid && job.node === node)`. -/
def isNodePending (jobs : Jobs) (pending : List Nat) (node : String) : Bool :=
  pending.any fun jid =>
    match olookup jid jobs with
    | some j => j.isValid && j.node == node
    | none => false

/-- `ensureNodeIsPermanent(permanentNodes, node)`: push the node unless the
list already contains it. -/
def ensureNodeIsPermanent (permanentNodes : List String) (node : String) : List String :=
  if node ∈ permanentNodes then permanentNodes else permanentNodes ++ [node]

/-- Modelled from the spec: `addNode` from the graph utility module
(`directed-dependency-graph/utils.js`, not among the sources).  §3: a graph
node is `{ id, dependencies: set<path>, dependents: set<path> }`; a freshly
added node has empty sets. -/
def addNode (nodes : Nodes) (node : String) : Nodes :=
  nodes ++ [(node, ⟨[], []⟩)]

/-- Idempotent insertion into a list used as a set. -/
def setInsert (l : List String) (x : String) : List String :=
  if x ∈ l then l else l ++ [x]

/-- Apply a function to the named node's entry. -/
def updateEntry (nodes : Nodes) (id : String) (f : GNode → GNode) : Nodes :=
  nodes.map fun p => if p.1 = id then (p.1, f p.2) else p

/-- Modelled from the spec: `addEdge` from the graph utility module (not among
the sources).  §3/§8: for every edge `a → b`, `b ∈ a.dependencies` iff
`a ∈ b.dependents`; dependency/dependent lists are sets. -/
def addEdge (nodes : Nodes) (a b : String) : Nodes :=
  updateEntry (updateEntry nodes a fun n => { n with dependencies := setInsert n.dependencies b })
    b fun n => { n with dependents := setInsert n.dependents a }

/-- Modelled from the spec: node removal (`removeNode`/`removeEdge` of the
graph utility module, not among the sources) removes the nodes and, by the
edge-symmetry invariant, every edge touching them. -/
def removeNodes (nodes : Nodes) (removed : List String) : Nodes :=
  (nodes.filter fun p => p.1 ∉ removed).map fun p =>
    (p.1, { dependencies := p.2.dependencies.filter (· ∉ removed),
            dependents := p.2.dependents.filter (· ∉ removed) })

/-- Forward-edge targets of a node (its `dependencies` list; empty for ids
not in the map). -/
def depsOf (nodes : Nodes) (id : String) : List String :=
  ((olookup id nodes).map GNode.dependencies).getD []

/-- All dependency-list entries of the whole map (used only to bound the
reachability iteration). -/
def allDepTargets : Nodes → List String
  | [] => []
  | p :: t => p.2.dependencies ++ allDepTargets t

/-- One expansion step of forward reachability: keep the set and add every
dependency of its members. -/
def reachStep (nodes : Nodes) (s : Finset String) : Finset String :=
  s ∪ s.biUnion fun i => (depsOf nodes i).toFinset

/-- Enough iterations to reach the fixed point of `reachStep`. -/
def reachFuel (nodes : Nodes) (roots : List String) : Nat :=
  (roots.toFinset ∪ (allDepTargets nodes).toFinset).card + 1

/-- The set of nodes reachable from `roots` via forward edges. -/
def reachSet (nodes : Nodes) (roots : List String) : Finset String :=
  (reachStep nodes)^[reachFuel nodes roots] roots.toFinset

/-- A single forward edge. -/
def GEdge (nodes : Nodes) (a b : String) : Prop := b ∈ depsOf nodes a

/-- Forward reachability as a relation. -/
def Reaches (nodes : Nodes) : String → String → Prop :=
  Relation.ReflTransGen (GEdge nodes)

/-- The graph remaining after deleting the pruned node itself. -/
def pruneRest (nodes : Nodes) (node : String) : Nodes :=
  removeNodes nodes [node]

/-- The permanent roots still present once the pruned node is deleted
("remaining permanent roots"). -/
def pruneSeeds (nodes : Nodes) (node : String) (permanentNodes : List String) : List String :=
  permanentNodes.filter fun r => (olookup r (pruneRest nodes node)).isSome

/-- The nodes that survive a prune: reachable from a remaining permanent root
without passing through the pruned node. -/
def pruneKeep (nodes : Nodes) (node : String) (permanentNodes : List String) : Finset String :=
  reachSet (pruneRest nodes node) (pruneSeeds nodes node permanentNodes)

/-- The ids removed by a prune: the pruned node and every successor of it
that is not kept. -/
def pruneRemoved (nodes : Nodes) (node : String) (permanentNodes : List String) : List String :=
  (keysOf nodes).filter fun n =>
    decide (n ∈ reachSet nodes [node]) && !decide (n ∈ pruneKeep nodes node permanentNodes)

/-- Modelled from the spec: `pruneFromNode` from the graph utility module (not
among the sources).  §4.4: "if the node exists, compute the set of nodes to
remove: starting from `id`, remove it and any successor that, after removal,
is not reachable from any remaining permanent root"; the fixed point of that
description is reachability from the remaining permanent roots avoiding the
pruned node (§8 scenario 5 and §9 require a reachability computation, which
also covers cycles).  Returns the removed ids and the remaining node map. -/
def pruneFromNode (nodes : Nodes) (node : String) (permanentNodes : List String) :
    List String × Nodes :=
  let removed := pruneRemoved nodes node permanentNodes
  (removed, removeNodes nodes removed)

/-- The result handed to a `getDependencies` callback `(err, dependencies)`. -/
inductive DepResult where
  | ok (dependencies : List String)
  | err (e : String)
deriving DecidableEq, Repr

/-- Events emitted by the graph (`added`, `pruned`, `error`, `complete`). -/
inductive GEvent where
  | added (node : String)
  | pruned (node : String)
  | errorEv (e node : String)
  | complete
deriving DecidableEq, Repr

/-- Scheduled work: `startTracing` (queued by `traceNode` via
`process.nextTick`), the `getDependencies` callback invocation, and the
completion check queued after a job finishes. -/
inductive GTask where
  | startTracing (jid : Nat) (node : String)
  | depsResolved (jid : Nat) (node : String) (result : DepResult)
  | checkComplete
deriving DecidableEq, Repr

/-- The whole graph state: the node map, the permanent roots, the job table,
the pending job list, the queue of scheduled tasks, the log of emitted
events, and the next fresh job id. -/
structure GraphState where
  nodes : Nodes
  permanentNodes : List String
  jobs : Jobs
  pendingJobs : List Nat
  tasks : List GTask
  events : List GEvent
  nextJobId : Nat
deriving DecidableEq, Repr

/-- `traceNode(node)`: create a `{node, isValid: true}` job, push it onto
`pendingJobs`, and schedule `startTracingNode` on the next tick. -/
def traceNodeOp (s : GraphState) (node : String) : GraphState :=
  { s with
    jobs := s.jobs ++ [(s.nextJobId, ⟨node, true⟩)]
    pendingJobs := s.pendingJobs ++ [s.nextJobId]
    tasks := s.tasks ++ [.startTracing s.nextJobId node]
    nextJobId := s.nextJobId + 1 }

/-- The per-dependency body of the `dependencies.forEach` loop in the trace
callback: possibly start a trace for the dependency, possibly add it as a
node (recording it in `nodesAdded`), then add the edge. -/
def processDep (origin : String) (acc : GraphState × List String) (dep : String) :
    GraphState × List String :=
  let (st, added) := acc
  let st :=
    if !(isNodeDefined st.nodes dep) && !(isNodePending st.jobs st.pendingJobs dep) then
      traceNodeOp st dep
    else st
  let (st, added) :=
    if isNodeDefined st.nodes dep then (st, added)
    else ({ st with nodes := addNode st.nodes dep }, added ++ [dep])
  ({ st with nodes := addEdge st.nodes origin dep }, added)

/-- Run one scheduled task, translated from `startTracingNode` and its
`getDependencies` callback.  `env` gives the dependency lists the tracer
reports. -/
def runTask (env : String → DepResult) (s : GraphState) : GTask → GraphState
  | .startTracing jid node =>
    let job := (olookup jid s.jobs).getD ⟨node, false⟩
    if !job.isValid then
      { s with pendingJobs := s.pendingJobs.erase jid }
    else
      { s with tasks := s.tasks ++ [.depsResolved jid node (env node)] }
  | .depsResolved jid node result =>
    let s := { s with pendingJobs := s.pendingJobs.erase jid }
    match result with
    | .err e => { s with events := s.events ++ [.errorEv e node] }
    | .ok dependencies =>
      let job := (olookup jid s.jobs).getD ⟨node, false⟩
      if !job.isValid then s
      else
        let start :=
          if isNodeDefined s.nodes node then (s, ([] : List String))
          else ({ s with nodes := addNode s.nodes node }, [node])
        let (st, added) := dependencies.foldl (processDep node) start
        { st with
          events := st.events ++ added.map GEvent.added
          tasks := st.tasks ++ [.checkComplete] }
  | .checkComplete =>
    if s.pendingJobs.isEmpty then { s with events := s.events ++ [.complete] }
    else s

/-- One scheduler step: remove the task at the given queue index and run it. -/
def schedStep (env : String → DepResult) (s : GraphState) (i : Nat) : GraphState :=
  match s.tasks[i]? with
  | none => s
  | some t => runTask env { s with tasks := s.tasks.eraseIdx i } t

/-- Invalidate every pending job whose node is among the removed ids
(`pendingJobs.filter(job => job.node === node).forEach(job => job.isValid =
false)`). -/
def invalidateMatching (jobs : Jobs) (pending : List Nat) (removed : List String) : Jobs :=
  jobs.map fun p =>
    if p.1 ∈ pending ∧ p.2.node ∈ removed then (p.1, { p.2 with isValid := false }) else p

/-- `pruneNode(node)`: if the node exists, prune from it, invalidate matching
pending jobs and emit `pruned` for each removed id; otherwise, if a valid
pending job matches, invalidate it and emit `pruned` for the id directly. -/
def pruneNodeOp (s : GraphState) (node : String) : GraphState :=
  if isNodeDefined s.nodes node then
    let pr := pruneFromNode s.nodes node s.permanentNodes
    { s with
      nodes := pr.2
      jobs := invalidateMatching s.jobs s.pendingJobs pr.1
      events := s.events ++ pr.1.map GEvent.pruned }
  else if isNodePending s.jobs s.pendingJobs node then
    { s with
      jobs := invalidateMatching s.jobs s.pendingJobs [node]
      events := s.events ++ [.pruned node] }
  else s

/-- `setNodeAsPermanent(node)`. -/
def setNodeAsPermanentOp (s : GraphState) (node : String) : GraphState :=
  { s with permanentNodes := ensureNodeIsPermanent s.permanentNodes node }

/-! ## Claims about the graph -/

/-- C10: when the `getDependencies` callback reports an error, the trace
callback removes the job from `pendingJobs` and emits `error` with
`(err, node)` — unconditionally: the error is emitted before the validity
check, so an invalidated job still produces the `error` event, while the
state equality shows no other mutation (no `added` events, nodes and edges
untouched). -/
theorem error_event_on_failed_resolution (env : String → DepResult) (s : GraphState)
    (jid : Nat) (node e : String) :
    runTask env s (.depsResolved jid node (.err e)) =
      { s with
        pendingJobs := s.pendingJobs.erase jid
        events := s.events ++ [.errorEv e node] } := rfl

/-- C4: once either cancellation check observes `isValid = false`, the job
only removes itself from `pendingJobs`: the node map (hence every edge) is
unchanged and no event — in particular no `added` event — is emitted, both
for the pre-dispatch check in `startTracingNode` and for the post-dispatch
check after `getDependencies` returns. -/
theorem invalidated_job_does_not_mutate (env : String → DepResult) (s : GraphState)
    (jid : Nat) (node : String) (h : olookup jid s.jobs = some ⟨node, false⟩) :
    runTask env s (.startTracing jid node) =
      { s with pendingJobs := s.pendingJobs.erase jid } ∧
    ∀ dependencies,
      runTask env s (.depsResolved jid node (.ok dependencies)) =
        { s with pendingJobs := s.pendingJobs.erase jid } := by
  constructor
  · simp [runTask, h]
  · intro dependencies
    simp [runTask, h]

/-- Concrete state used by the C4 witness: one already-invalidated pending
job for node `A`. -/
def invalidatedJobState : GraphState := ⟨[], [], [(0, ⟨"A", false⟩)], [0], [], [], 1⟩

theorem invalidated_job_does_not_mutate_witness :
    olookup 0 invalidatedJobState.jobs = some ⟨"A", false⟩ ∧
    runTask (fun _ => .ok []) invalidatedJobState (.startTracing 0 "A") =
      { invalidatedJobState with pendingJobs := invalidatedJobState.pendingJobs.erase 0 } ∧
    runTask (fun _ => .ok []) invalidatedJobState (.depsResolved 0 "A" (.ok ["B"])) =
      { invalidatedJobState with pendingJobs := invalidatedJobState.pendingJobs.erase 0 } :=
  ⟨rfl,
    (invalidated_job_does_not_mutate (fun _ => .ok []) invalidatedJobState 0 "A" rfl).1,
    (invalidated_job_does_not_mutate (fun _ => .ok []) invalidatedJobState 0 "A" rfl).2 ["B"]⟩

theorem processDep_fst_events (origin : String) (st : GraphState) (added : List String)
    (dep : String) : ((processDep origin (st, added) dep).1).events = st.events := by
  unfold processDep
  dsimp only
  split <;> split <;> rfl

theorem foldl_processDep_events (origin : String) (deps : List String) :
    ∀ (st : GraphState) (added : List String),
      ((deps.foldl (processDep origin) (st, added)).1).events = st.events := by
  induction deps with
  | nil => intro st added; rfl
  | cons d t ih =>
    intro st added
    show ((t.foldl (processDep origin) (processDep origin (st, added) d)).1).events = _
    rcases hp : processDep origin (st, added) d with ⟨st', added'⟩
    rw [ih st' added']
    have := processDep_fst_events origin st added d
    rw [hp] at this
    exact this

theorem count_complete_map_added (l : List String) :
    (l.map GEvent.added).count GEvent.complete = 0 := by
  induction l with
  | nil => rfl
  | cons a t ih => simp [List.count_cons, ih]

/-- C3 amended: a `complete` event is emitted exactly by a completion check
that observes an empty `pendingJobs` list (so `complete` is only emitted at
quiescence), and every successful completion of a still-valid trace job
schedules such a check.  There is, however, no once-per-quiescence latch:
each check that observes the drained list emits its own `complete` (see the
counterexample), and an erroring or invalidated job schedules no check. -/
theorem complete_only_when_drained (env : String → DepResult) (s : GraphState) (t : GTask) :
    ((runTask env s t).events.count GEvent.complete = s.events.count GEvent.complete ∨
      (s.pendingJobs = [] ∧ t = .checkComplete ∧
        (runTask env s t).events.count GEvent.complete =
          s.events.count GEvent.complete + 1)) ∧
    (∀ jid node dependencies, t = .depsResolved jid node (.ok dependencies) →
      ((olookup jid s.jobs).getD ⟨node, false⟩).isValid = true →
      GTask.checkComplete ∈ (runTask env s t).tasks) := by
  constructor
  · cases t with
    | startTracing jid node =>
      left
      unfold runTask
      dsimp only
      split <;> rfl
    | checkComplete =>
      by_cases hp : s.pendingJobs.isEmpty
      · right
        refine ⟨List.isEmpty_iff.mp hp, rfl, ?_⟩
        unfold runTask
        rw [if_pos hp]
        simp [List.count_append]
      · left
        unfold runTask
        rw [if_neg hp]
    | depsResolved jid node result =>
      left
      cases result with
      | err e =>
        unfold runTask
        dsimp only
        simp [List.count_append]
      | ok dependencies =>
        unfold runTask
        dsimp only
        split
        · rfl
        · rw [List.count_append, count_complete_map_added]
          have hfold := foldl_processDep_events node dependencies
          split
          · rw [hfold]
            simp
          · rw [hfold]
            simp
  · intro jid node dependencies ht hv
    subst ht
    simp [runTask, hv]

/-- The empty graph, as produced by `createGraph`. -/
def emptyGraphState : GraphState := ⟨[], [], [], [], [], [], 0⟩

/-- A tracer whose `getDependencies` reports no dependencies for any node. -/
def constEnvOk : String → DepResult := fun _ => .ok []

theorem complete_only_when_drained_witness :
    GTask.checkComplete ∈
      (runTask constEnvOk (traceNodeOp emptyGraphState "A")
        (.depsResolved 0 "A" (.ok []))).tasks :=
  (complete_only_when_drained constEnvOk (traceNodeOp emptyGraphState "A")
      (.depsResolved 0 "A" (.ok []))).2 0 "A" [] rfl (by decide)

/-- The state reached by tracing `A` and `B` and then running, in next-tick
order, both dispatches and both `getDependencies` callbacks (the callbacks
run in the same tick, before either completion check). -/
def sameTickState : GraphState :=
  schedStep constEnvOk (schedStep constEnvOk (schedStep constEnvOk (schedStep constEnvOk
    (traceNodeOp (traceNodeOp emptyGraphState "A") "B") 0) 1) 0) 1

/-- `sameTickState` after running the two queued completion checks. -/
def sameTickStateChecked : GraphState :=
  schedStep constEnvOk (schedStep constEnvOk sameTickState 0) 0

/-- C3 counterexample: when two pending jobs finish in the same scheduling
tick, `pendingJobs` drains exactly once (it is empty from `sameTickState`
on and never refills), no `complete` has been emitted yet, and then each of
the two queued completion checks observes the empty list and emits its own
`complete` — two `complete` events for a single quiescence, refuting "at
most once per quiescence". -/
theorem complete_twice_per_quiescence_cex :
    sameTickState.pendingJobs = [] ∧
    sameTickState.events.count GEvent.complete = 0 ∧
    (schedStep constEnvOk sameTickState 0).pendingJobs = [] ∧
    sameTickStateChecked.pendingJobs = [] ∧
    sameTickStateChecked.events =
      [.added "A", .added "B", .complete, .complete] := by
  refine ⟨by decide, by decide, by decide, by decide, by decide⟩

/-! ## Reachability: the iteration reaches its fixed point -/

theorem subset_iterate_of_infl (f : Finset String → Finset String)
    (hinfl : ∀ s, s ⊆ f s) (init : Finset String) : ∀ k, init ⊆ f^[k] init := by
  intro k
  induction k with
  | zero => simp
  | succ n ih =>
    rw [Function.iterate_succ_apply']
    exact ih.trans (hinfl _)

theorem iterate_subset_of_bound (f : Finset String → Finset String) (B : Finset String)
    (hB : ∀ s, s ⊆ B → f s ⊆ B) (init : Finset String) (hinit : init ⊆ B) :
    ∀ k, f^[k] init ⊆ B := by
  intro k
  induction k with
  | zero => simpa
  | succ n ih =>
    rw [Function.iterate_succ_apply']
    exact hB _ ih

theorem iterate_stable_forever (f : Finset String → Finset String) (init : Finset String)
    (k : Nat) (hfix : f^[k + 1] init = f^[k] init) :
    ∀ m, k ≤ m → f^[m] init = f^[k] init := by
  intro m hm
  induction m with
  | zero =>
    have hz : k = 0 := Nat.le_zero.mp hm
    subst hz; rfl
  | succ n ih =>
    rcases Nat.lt_or_ge k (n + 1) with h | h
    · have hkn : k ≤ n := Nat.lt_succ_iff.mp h
      rw [Function.iterate_succ_apply', ih hkn,
        (Function.iterate_succ_apply' f k init).symm.trans hfix]
    · have hkeq : k = n + 1 := Nat.le_antisymm hm h
      rw [hkeq]

theorem exists_iterate_fix (f : Finset String → Finset String) (B : Finset String)
    (hinfl : ∀ s, s ⊆ f s) (hB : ∀ s, s ⊆ B → f s ⊆ B) (init : Finset String)
    (hinit : init ⊆ B) : ∃ k, k ≤ B.card ∧ f^[k + 1] init = f^[k] init := by
  by_contra hc
  push_neg at hc
  have grow : ∀ k, k ≤ B.card + 1 → k ≤ (f^[k] init).card := by
    intro k hk
    induction k with
    | zero => exact Nat.zero_le _
    | succ n ih =>
      have hn : n ≤ B.card := by omega
      have h1 : f^[n] init ⊆ f^[n + 1] init := by
        rw [Function.iterate_succ_apply']
        exact hinfl _
      have hss : f^[n] init ⊂ f^[n + 1] init :=
        ssubset_iff_subset_ne.mpr ⟨h1, Ne.symm (hc n hn)⟩
      have hlt := Finset.card_lt_card hss
      have ihn := ih (by omega)
      omega
  have hb := iterate_subset_of_bound f B hB init hinit (B.card + 1)
  have hcard := Finset.card_le_card hb
  have := grow (B.card + 1) le_rfl
  omega

theorem iterate_fix_at_card (f : Finset String → Finset String) (B : Finset String)
    (hinfl : ∀ s, s ⊆ f s) (hB : ∀ s, s ⊆ B → f s ⊆ B) (init : Finset String)
    (hinit : init ⊆ B) : f (f^[B.card + 1] init) = f^[B.card + 1] init := by
  obtain ⟨k, hk, hfix⟩ := exists_iterate_fix f B hinfl hB init hinit
  have h1 : f^[B.card + 1] init = f^[k] init :=
    iterate_stable_forever f init k hfix _ (by omega)
  calc f (f^[B.card + 1] init) = f (f^[k] init) := by rw [h1]
    _ = f^[k + 1] init := (Function.iterate_succ_apply' f k init).symm
    _ = f^[k] init := hfix
    _ = f^[B.card + 1] init := h1.symm

/-- The finite universe that bounds the reachability iteration. -/
def reachBound (nodes : Nodes) (roots : List String) : Finset String :=
  roots.toFinset ∪ (allDepTargets nodes).toFinset

theorem reachFuel_eq (nodes : Nodes) (roots : List String) :
    reachFuel nodes roots = (reachBound nodes roots).card + 1 := rfl

theorem mem_allDepTargets_of_entry {nodes : Nodes} {p : String × GNode} {y : String}
    (hp : p ∈ nodes) (hy : y ∈ p.2.dependencies) : y ∈ allDepTargets nodes := by
  induction nodes with
  | nil => cases hp
  | cons q t ih =>
    rcases List.mem_cons.mp hp with h | h
    · subst h
      exact List.mem_append_left _ hy
    · exact List.mem_append_right _ (ih h)

theorem depsOf_subset_allDepTargets (nodes : Nodes) (i : String) :
    ∀ y ∈ depsOf nodes i, y ∈ allDepTargets nodes := by
  intro y hy
  unfold depsOf at hy
  cases h : olookup i nodes with
  | none => rw [h] at hy; cases hy
  | some nd =>
    rw [h] at hy
    exact mem_allDepTargets_of_entry (olookup_mem h) hy

theorem reachStep_infl (nodes : Nodes) : ∀ s, s ⊆ reachStep nodes s :=
  fun _ => Finset.subset_union_left

theorem reachStep_bound (nodes : Nodes) (roots : List String) :
    ∀ s, s ⊆ reachBound nodes roots → reachStep nodes s ⊆ reachBound nodes roots := by
  intro s hs
  unfold reachStep
  refine Finset.union_subset hs (Finset.biUnion_subset.mpr fun i _ => ?_)
  intro y hy
  exact Finset.mem_union_right _
    (List.mem_toFinset.mpr (depsOf_subset_allDepTargets nodes i y (List.mem_toFinset.mp hy)))

theorem roots_subset_reachBound (nodes : Nodes) (roots : List String) :
    roots.toFinset ⊆ reachBound nodes roots :=
  Finset.subset_union_left

theorem reachSet_fix (nodes : Nodes) (roots : List String) :
    reachStep nodes (reachSet nodes roots) = reachSet nodes roots := by
  unfold reachSet
  rw [reachFuel_eq]
  exact iterate_fix_at_card (reachStep nodes) (reachBound nodes roots) (reachStep_infl nodes)
    (reachStep_bound nodes roots) roots.toFinset (roots_subset_reachBound nodes roots)

theorem subset_reachSet (nodes : Nodes) (roots : List String) :
    roots.toFinset ⊆ reachSet nodes roots :=
  subset_iterate_of_infl (reachStep nodes) (reachStep_infl nodes) roots.toFinset _

theorem reachSet_subset_bound (nodes : Nodes) (roots : List String) :
    reachSet nodes roots ⊆ reachBound nodes roots :=
  iterate_subset_of_bound (reachStep nodes) (reachBound nodes roots)
    (reachStep_bound nodes roots) roots.toFinset (roots_subset_reachBound nodes roots) _

theorem reachSet_closed_edge {nodes : Nodes} {roots : List String} {a b : String}
    (ha : a ∈ reachSet nodes roots) (hab : GEdge nodes a b) : b ∈ reachSet nodes roots := by
  have : b ∈ reachStep nodes (reachSet nodes roots) :=
    Finset.mem_union_right _
      (Finset.mem_biUnion.mpr ⟨a, ha, List.mem_toFinset.mpr hab⟩)
  rwa [reachSet_fix] at this

theorem mem_reachSet_of_reaches {nodes : Nodes} {roots : List String} {r b : String}
    (hr : r ∈ roots) (h : Reaches nodes r b) : b ∈ reachSet nodes roots := by
  induction h with
  | refl => exact subset_reachSet nodes roots (List.mem_toFinset.mpr hr)
  | tail _ hedge ih => exact reachSet_closed_edge ih hedge

theorem exists_root_reaches_of_mem_reachSet {nodes : Nodes} {roots : List String} {b : String}
    (hb : b ∈ reachSet nodes roots) : ∃ r ∈ roots, Reaches nodes r b := by
  have aux : ∀ (k : Nat) (c : String), c ∈ (reachStep nodes)^[k] roots.toFinset →
      ∃ r ∈ roots, Reaches nodes r c := by
    intro k
    induction k with
    | zero =>
      intro c hc
      exact ⟨c, List.mem_toFinset.mp hc, .refl⟩
    | succ n ih =>
      intro c hc
      rw [Function.iterate_succ_apply'] at hc
      rcases Finset.mem_union.mp hc with h | h
      · exact ih c h
      · obtain ⟨i, hi, hci⟩ := Finset.mem_biUnion.mp h
        obtain ⟨r, hr, hpath⟩ := ih i hi
        exact ⟨r, hr, hpath.tail (List.mem_toFinset.mp hci)⟩
  exact aux _ b hb

/-! ## Pruning preserves reachability from permanent roots -/

theorem removeNodes_cons (a : String) (nd : GNode) (t : Nodes) (R : List String) :
    removeNodes ((a, nd) :: t) R =
      if a ∈ R then removeNodes t R
      else (a, ⟨nd.dependencies.filter (· ∉ R), nd.dependents.filter (· ∉ R)⟩) ::
        removeNodes t R := by
  unfold removeNodes
  by_cases h : a ∈ R
  · simp [List.filter_cons, h]
  · simp [List.filter_cons, h]

theorem olookup_removeNodes (nodes : Nodes) (R : List String) (c : String) :
    olookup c (removeNodes nodes R) =
      if c ∈ R then none
      else (olookup c nodes).map fun nd =>
        (⟨nd.dependencies.filter (· ∉ R), nd.dependents.filter (· ∉ R)⟩ : GNode) := by
  induction nodes with
  | nil => simp [removeNodes, olookup, ite_self]
  | cons p t ih =>
    obtain ⟨a, nd⟩ := p
    rw [removeNodes_cons]
    by_cases haR : a ∈ R
    · rw [if_pos haR, ih]
      by_cases hc : c ∈ R
      · simp [hc]
      · have hac : a ≠ c := fun he => hc (he ▸ haR)
        simp [olookup, hac, hc]
    · rw [if_neg haR]
      by_cases hac : a = c
      · subst hac
        simp [olookup, haR]
      · simp [olookup, hac, ih]

theorem depsOf_removeNodes_not_mem {nodes : Nodes} {R : List String} {c : String}
    (h : c ∉ R) :
    depsOf (removeNodes nodes R) c = (depsOf nodes c).filter (fun y => y ∉ R) := by
  unfold depsOf
  rw [olookup_removeNodes, if_neg h]
  cases olookup c nodes <;> simp

theorem depsOf_removeNodes_mem {nodes : Nodes} {R : List String} {c : String}
    (h : c ∈ R) : depsOf (removeNodes nodes R) c = [] := by
  unfold depsOf
  rw [olookup_removeNodes, if_pos h]
  rfl

theorem gedge_removeNodes_elim {nodes : Nodes} {R : List String} {a b : String}
    (h : GEdge (removeNodes nodes R) a b) : GEdge nodes a b ∧ a ∉ R ∧ b ∉ R := by
  by_cases haR : a ∈ R
  · simp only [GEdge, depsOf_removeNodes_mem haR] at h
    cases h
  · simp only [GEdge, depsOf_removeNodes_not_mem haR, List.mem_filter] at h
    refine ⟨h.1, haR, by simpa using h.2⟩

theorem gedge_removeNodes_intro {nodes : Nodes} {R : List String} {a b : String}
    (h : GEdge nodes a b) (ha : a ∉ R) (hb : b ∉ R) :
    GEdge (removeNodes nodes R) a b := by
  simp only [GEdge] at h ⊢
  rw [depsOf_removeNodes_not_mem ha, List.mem_filter]
  exact ⟨h, by simpa using hb⟩

theorem not_mem_of_mem_allDepTargets_removeNodes {nodes : Nodes} {R : List String}
    {y : String} (h : y ∈ allDepTargets (removeNodes nodes R)) : y ∉ R := by
  induction nodes with
  | nil =>
    rw [show removeNodes [] R = [] from rfl] at h
    cases h
  | cons p t ih =>
    obtain ⟨a, nd⟩ := p
    rw [removeNodes_cons] at h
    by_cases haR : a ∈ R
    · rw [if_pos haR] at h
      exact ih h
    · rw [if_neg haR] at h
      simp only [allDepTargets] at h
      rcases List.mem_append.mp h with h | h
      · have := (List.mem_filter.mp h).2
        simpa using this
      · exact ih h

theorem mem_pruneRemoved_iff {nodes : Nodes} {x : String} {roots : List String}
    {n : String} :
    n ∈ pruneRemoved nodes x roots ↔
      n ∈ keysOf nodes ∧ n ∈ reachSet nodes [x] ∧ n ∉ pruneKeep nodes x roots := by
  unfold pruneRemoved
  rw [List.mem_filter]
  simp [and_assoc]

theorem self_mem_pruneRemoved {nodes : Nodes} {x : String} {roots : List String}
    (hx : isNodeDefined nodes x = true) : x ∈ pruneRemoved nodes x roots := by
  rw [mem_pruneRemoved_iff]
  refine ⟨(olookup_isSome_iff_mem x nodes).mp hx, subset_reachSet _ _ (by simp), ?_⟩
  intro hk
  have hb := reachSet_subset_bound (pruneRest nodes x) (pruneSeeds nodes x roots) hk
  rcases Finset.mem_union.mp hb with h | h
  · have hxseeds := List.mem_toFinset.mp h
    have hlook := (List.mem_filter.mp hxseeds).2
    rw [show olookup x (pruneRest nodes x) = none from by
      unfold pruneRest; rw [olookup_removeNodes]; simp] at hlook
    simp at hlook
  · exact not_mem_of_mem_allDepTargets_removeNodes (List.mem_toFinset.mp h) (by simp)

theorem reaches_lift_avoid {nodes : Nodes} {x : String} {roots : List String}
    {r b : String} (hpath : Reaches nodes r b) (hb : b ∉ reachSet nodes [x]) :
    Reaches (removeNodes nodes (pruneRemoved nodes x roots)) r b := by
  induction hpath with
  | refl => exact .refl
  | @tail m c hrm hmc ih =>
    have hmS : m ∉ reachSet nodes [x] := fun hm => hb (reachSet_closed_edge hm hmc)
    have hmrem : m ∉ pruneRemoved nodes x roots := fun hm =>
      hmS (mem_pruneRemoved_iff.mp hm).2.1
    have hcrem : c ∉ pruneRemoved nodes x roots := fun hc =>
      hb (mem_pruneRemoved_iff.mp hc).2.1
    exact (ih hmS).tail (gedge_removeNodes_intro hmc hmrem hcrem)

theorem reaches_lift_keep {nodes : Nodes} {x : String} {roots : List String}
    {r b : String} (hr : r ∈ pruneSeeds nodes x roots)
    (hpath : Reaches (pruneRest nodes x) r b) :
    Reaches (removeNodes nodes (pruneRemoved nodes x roots)) r b := by
  induction hpath with
  | refl => exact .refl
  | @tail m c hrm hmc ih =>
    obtain ⟨hedge, hmx, hcx⟩ := gedge_removeNodes_elim hmc
    have hmK : m ∈ pruneKeep nodes x roots := mem_reachSet_of_reaches hr hrm
    have hcK : c ∈ pruneKeep nodes x roots := mem_reachSet_of_reaches hr (hrm.tail hmc)
    have hmrem : m ∉ pruneRemoved nodes x roots := fun hm =>
      (mem_pruneRemoved_iff.mp hm).2.2 hmK
    have hcrem : c ∉ pruneRemoved nodes x roots := fun hc =>
      (mem_pruneRemoved_iff.mp hc).2.2 hcK
    exact ih.tail (gedge_removeNodes_intro hedge hmrem hcrem)

theorem pruneNodeOp_nodes_of_defined {g : GraphState} {x : String}
    (hx : isNodeDefined g.nodes x = true) :
    (pruneNodeOp g x).nodes = removeNodes g.nodes (pruneRemoved g.nodes x g.permanentNodes) := by
  unfold pruneNodeOp
  rw [if_pos hx]
  rfl

theorem pruneNodeOp_nodes_of_undefined {g : GraphState} {x : String}
    (hx : ¬ isNodeDefined g.nodes x = true) : (pruneNodeOp g x).nodes = g.nodes := by
  unfold pruneNodeOp
  rw [if_neg hx]
  split_ifs <;> rfl

theorem pruneNodeOp_permanentNodes (g : GraphState) (x : String) :
    (pruneNodeOp g x).permanentNodes = g.permanentNodes := by
  unfold pruneNodeOp
  split_ifs <;> rfl

theorem pruneNodeOp_pendingJobs (g : GraphState) (x : String) :
    (pruneNodeOp g x).pendingJobs = g.pendingJobs := by
  unfold pruneNodeOp
  split_ifs <;> rfl

/-- C1 (spec-modelled prune): if, before a prune, every node of the graph is
reachable from some permanent root, then after `pruneNode(x)` every node
still present is reachable, inside the pruned graph, from some permanent
root — and, equivalently, any node that is not reachable from a permanent
root in the pruned graph has been removed. -/
theorem pruneNode_keeps_only_root_reachable (g : GraphState) (x : String)
    (hpre : ∀ id, isNodeDefined g.nodes id = true →
      ∃ r ∈ g.permanentNodes, Reaches g.nodes r id) :
    (∀ id, isNodeDefined (pruneNodeOp g x).nodes id = true →
      ∃ r ∈ (pruneNodeOp g x).permanentNodes, Reaches (pruneNodeOp g x).nodes r id) ∧
    (∀ id, (¬ ∃ r ∈ (pruneNodeOp g x).permanentNodes,
        Reaches (pruneNodeOp g x).nodes r id) →
      isNodeDefined (pruneNodeOp g x).nodes id = false) := by
  have main : ∀ id, isNodeDefined (pruneNodeOp g x).nodes id = true →
      ∃ r ∈ (pruneNodeOp g x).permanentNodes, Reaches (pruneNodeOp g x).nodes r id := by
    intro id hid
    rw [pruneNodeOp_permanentNodes]
    by_cases hx : isNodeDefined g.nodes x = true
    · rw [pruneNodeOp_nodes_of_defined hx] at hid ⊢
      unfold isNodeDefined at hid
      rw [olookup_removeNodes] at hid
      by_cases hidR : id ∈ pruneRemoved g.nodes x g.permanentNodes
      · rw [if_pos hidR] at hid
        cases hid
      · rw [if_neg hidR] at hid
        have hdef : isNodeDefined g.nodes id = true := by
          unfold isNodeDefined
          cases holo : olookup id g.nodes with
          | none => rw [holo] at hid; cases hid
          | some nd => rfl
        obtain ⟨r, hr, hpath⟩ := hpre id hdef
        by_cases hS : id ∈ reachSet g.nodes [x]
        · have hidkeep : id ∈ pruneKeep g.nodes x g.permanentNodes := by
            by_contra hk
            exact hidR (mem_pruneRemoved_iff.mpr
              ⟨(olookup_isSome_iff_mem id g.nodes).mp hdef, hS, hk⟩)
          obtain ⟨r', hr'seed, hpath'⟩ := exists_root_reaches_of_mem_reachSet hidkeep
          exact ⟨r', List.mem_of_mem_filter hr'seed, reaches_lift_keep hr'seed hpath'⟩
        · exact ⟨r, hr, reaches_lift_avoid hpath hS⟩
    · rw [pruneNodeOp_nodes_of_undefined hx] at hid ⊢
      exact hpre id hid
  refine ⟨main, fun id hne => ?_⟩
  cases hdef : isNodeDefined (pruneNodeOp g x).nodes id with
  | true => exact absurd (main id hdef) hne
  | false => rfl

/-- Concrete graph for the C1/C9 witnesses: `A → B` with permanent root `A`. -/
def rootedPairState : GraphState :=
  ⟨[("A", ⟨["B"], []⟩), ("B", ⟨[], ["A"]⟩)], ["A"], [], [], [], [], 0⟩

theorem pruneNode_keeps_only_root_reachable_witness :
    (∀ id, isNodeDefined rootedPairState.nodes id = true →
      ∃ r ∈ rootedPairState.permanentNodes, Reaches rootedPairState.nodes r id) ∧
    (∀ id, isNodeDefined (pruneNodeOp rootedPairState "B").nodes id = true →
      ∃ r ∈ (pruneNodeOp rootedPairState "B").permanentNodes,
        Reaches (pruneNodeOp rootedPairState "B").nodes r id) := by
  have hpre : ∀ id, isNodeDefined rootedPairState.nodes id = true →
      ∃ r ∈ rootedPairState.permanentNodes, Reaches rootedPairState.nodes r id := by
    intro id hid
    by_cases h1 : id = "A"
    · subst h1
      exact ⟨"A", by decide, .refl⟩
    · by_cases h2 : id = "B"
      · subst h2
        exact ⟨"A", by decide,
          Relation.ReflTransGen.single
            (show "B" ∈ depsOf rootedPairState.nodes "A" by decide)⟩
      · exfalso
        simp [rootedPairState, isNodeDefined, olookup, Ne.symm h1, Ne.symm h2] at hid
  exact ⟨hpre, (pruneNode_keeps_only_root_reachable rootedPairState "B" hpre).1⟩

/-! ## Idempotence of prune and setPermanent -/

theorem invalidateMatching_cons (a : Nat) (j : Job) (t : Jobs) (pending : List Nat)
    (removed : List String) :
    invalidateMatching ((a, j) :: t) pending removed =
      (if a ∈ pending ∧ j.node ∈ removed then (a, { j with isValid := false }) else (a, j)) ::
        invalidateMatching t pending removed := rfl

theorem olookup_invalidateMatching (jobs : Jobs) (pending : List Nat)
    (removed : List String) (jid : Nat) :
    olookup jid (invalidateMatching jobs pending removed) =
      (olookup jid jobs).map fun j =>
        if jid ∈ pending ∧ j.node ∈ removed then { j with isValid := false } else j := by
  induction jobs with
  | nil => rfl
  | cons p t ih =>
    obtain ⟨a, j⟩ := p
    rw [invalidateMatching_cons]
    by_cases hc : a ∈ pending ∧ j.node ∈ removed
    · rw [if_pos hc]
      by_cases haj : a = jid
      · subst haj
        simp [olookup, hc]
      · simp [olookup, haj, ih]
    · rw [if_neg hc]
      by_cases haj : a = jid
      · subst haj
        simp [olookup, hc]
      · simp [olookup, haj, ih]

theorem isNodePending_invalidateMatching_false (jobs : Jobs) (pending : List Nat)
    (removed : List String) (x : String) (hx : x ∈ removed) :
    isNodePending (invalidateMatching jobs pending removed) pending x = false := by
  unfold isNodePending
  rw [List.any_eq_false]
  intro jid hjid
  rw [olookup_invalidateMatching]
  cases holo : olookup jid jobs with
  | none => simp
  | some j =>
    by_cases hn : j.node ∈ removed
    · simp [hjid, hn]
    · have hne : j.node ≠ x := fun he => hn (he ▸ hx)
      simp [hjid, hn, hne]

theorem pruneNodeOp_of_inactive {s : GraphState} {x : String}
    (h1 : isNodeDefined s.nodes x = false)
    (h2 : isNodePending s.jobs s.pendingJobs x = false) : pruneNodeOp s x = s := by
  unfold pruneNodeOp
  rw [if_neg (by simp [h1]), if_neg (by simp [h2])]

/-- C9: pruning the same node twice leaves the graph exactly as pruning it
once (the second call finds the node neither defined nor validly pending —
its matching jobs were invalidated — and is the identity), and marking a
node permanent twice equals marking it once, with no duplicate entries
introduced into the permanent-root list. -/
theorem prune_set_permanent_idempotent (g : GraphState) (x : String) :
    pruneNodeOp (pruneNodeOp g x) x = pruneNodeOp g x ∧
    setNodeAsPermanentOp (setNodeAsPermanentOp g x) x = setNodeAsPermanentOp g x ∧
    (g.permanentNodes.Nodup → (setNodeAsPermanentOp g x).permanentNodes.Nodup) := by
  refine ⟨?_, ?_, ?_⟩
  · by_cases hx : isNodeDefined g.nodes x = true
    · have hjobs1 : (pruneNodeOp g x).jobs =
          invalidateMatching g.jobs g.pendingJobs (pruneRemoved g.nodes x g.permanentNodes) := by
        unfold pruneNodeOp
        rw [if_pos hx]
        rfl
      have hnodes1 : isNodeDefined (pruneNodeOp g x).nodes x = false := by
        rw [show (pruneNodeOp g x).nodes =
            removeNodes g.nodes (pruneRemoved g.nodes x g.permanentNodes) from
          pruneNodeOp_nodes_of_defined hx]
        unfold isNodeDefined
        rw [olookup_removeNodes, if_pos (self_mem_pruneRemoved hx)]
        rfl
      have hpending1 : isNodePending (pruneNodeOp g x).jobs (pruneNodeOp g x).pendingJobs
          x = false := by
        rw [hjobs1, pruneNodeOp_pendingJobs]
        exact isNodePending_invalidateMatching_false _ _ _ _ (self_mem_pruneRemoved hx)
      exact pruneNodeOp_of_inactive hnodes1 hpending1
    · by_cases hpend : isNodePending g.jobs g.pendingJobs x = true
      · have hg1 : pruneNodeOp g x =
            { g with
              jobs := invalidateMatching g.jobs g.pendingJobs [x]
              events := g.events ++ [.pruned x] } := by
          unfold pruneNodeOp
          rw [if_neg hx, if_pos hpend]
        have hnodes1 : isNodeDefined (pruneNodeOp g x).nodes x = false := by
          rw [hg1]
          exact (Bool.not_eq_true _).mp hx
        have hpending1 : isNodePending (pruneNodeOp g x).jobs (pruneNodeOp g x).pendingJobs
            x = false := by
          rw [hg1]
          exact isNodePending_invalidateMatching_false _ _ _ _ (by simp)
        exact pruneNodeOp_of_inactive hnodes1 hpending1
      · have hg1 : pruneNodeOp g x = g :=
          pruneNodeOp_of_inactive ((Bool.not_eq_true _).mp hx) ((Bool.not_eq_true _).mp hpend)
        simp only [hg1]
  · have hidem : ensureNodeIsPermanent (ensureNodeIsPermanent g.permanentNodes x) x =
        ensureNodeIsPermanent g.permanentNodes x := by
      unfold ensureNodeIsPermanent
      by_cases h : x ∈ g.permanentNodes
      · simp [h]
      · simp [h]
    simp [setNodeAsPermanentOp, hidem]
  · intro hnd
    show (ensureNodeIsPermanent g.permanentNodes x).Nodup
    unfold ensureNodeIsPermanent
    split_ifs with h
    · exact hnd
    · rw [List.nodup_append]
      refine ⟨hnd, List.nodup_singleton x, ?_⟩
      intro a ha hax
      rw [List.mem_singleton] at hax
      subst hax
      exact h ha

theorem prune_set_permanent_idempotent_witness :
    pruneNodeOp (pruneNodeOp rootedPairState "B") "B" = pruneNodeOp rootedPairState "B" ∧
    setNodeAsPermanentOp (setNodeAsPermanentOp rootedPairState "B") "B" =
      setNodeAsPermanentOp rootedPairState "B" ∧
    rootedPairState.permanentNodes.Nodup ∧
    (setNodeAsPermanentOp rootedPairState "B").permanentNodes.Nodup :=
  ⟨(prune_set_permanent_idempotent rootedPairState "B").1,
    (prune_set_permanent_idempotent rootedPairState "B").2.1,
    by decide,
    (prune_set_permanent_idempotent rootedPairState "B").2.2 (by decide)⟩
